import Mathlib

/-!
Verification development for the attention-based sequence-to-sequence model in
`models/pytorch/attention/attention_seq2seq.py` (repository `neural_sp`).

The neural substrate (encoder RNN, decoder RNN, attention layer, embedding,
linear projections, log-softmax) is opaque numeric code; it is modelled here by
oracle functions bundled in a structure, while every piece of *control flow and
arithmetic written in the source file itself* (score combination, beam
bookkeeping including Python list aliasing, greedy argmax loop, constructor
checks, CTC length rescaling, in-place tensor updates) is translated
definition-by-definition from the source.

Python floats are modelled as real numbers, plus an explicit negative-infinity
element (`NEG_INF = -float("inf")` in the source).
-/

/-- Model of a Python float that is either an ordinary (finite) real number or
`-float("inf")` (`NEG_INF` in the source).  NaN and `+inf` never arise in the
modelled code paths. -/
inductive ExtReal where
  | negInf : ExtReal
  | fin : ℝ → ExtReal

namespace ExtReal

/-- `np.max` of two such floats, under the assumption (enforced at every call
site inside `_logsumexp`) that not both are `-inf`; the value returned on the
unreachable both-`-inf` branch is irrelevant. -/
def toMax : ExtReal → ExtReal → ℝ
  | negInf, negInf => 0
  | negInf, fin b => b
  | fin a, negInf => a
  | fin a, fin b => max a b

/-- `np.exp (a - a_max)` for `a` a possibly `-inf` float and `a_max` finite:
`np.exp (-inf) = 0`. -/
noncomputable def expSub : ExtReal → ℝ → ℝ
  | negInf, _ => 0
  | fin a, m => Real.exp (a - m)

/-- Ordering on modelled floats, as Python compares them (`-inf` below every
finite value). -/
def le : ExtReal → ExtReal → Prop
  | negInf, _ => True
  | fin _, negInf => False
  | fin a, fin b => a ≤ b

noncomputable instance : ∀ x y : ExtReal, Decidable (le x y) := fun x y =>
  match x, y with
  | negInf, _ => isTrue trivial
  | fin _, negInf => isFalse id
  | fin a, fin b => inferInstanceAs (Decidable (a ≤ b))

theorem le_self : ∀ x : ExtReal, le x x
  | negInf => trivial
  | fin a => le_of_eq (rfl : a = a)

theorem le_total_of_not : ∀ x y : ExtReal, ¬ le x y → le y x
  | negInf, _, h => absurd trivial h
  | fin _, negInf, _ => trivial
  | fin a, fin b, h => by
      have hab : ¬ a ≤ b := fun hab => h hab
      exact le_of_not_le hab

end ExtReal

/-- `_logsumexp` from the source (specialised to the two-argument form in
which the decoder calls it):

    def _logsumexp(*args):
        if all(a == NEG_INF for a in args):
            return NEG_INF
        a_max = np.max(args)
        lsp = np.log(np.sum(np.exp(a - a_max) for a in args))
        return a_max + lsp
-/
noncomputable def _logsumexp (x y : ExtReal) : ExtReal :=
  match x, y with
  | .negInf, .negInf => .negInf
  | _, _ =>
    let m := ExtReal.toMax x y
    .fin (m + Real.log (ExtReal.expSub x m + ExtReal.expSub y m))

/-- The standard stable-shift identity behind `_logsumexp`. -/
theorem max_shift_logsumexp (s p : ℝ) :
    max s p + Real.log (Real.exp (s - max s p) + Real.exp (p - max s p)) =
      Real.log (Real.exp s + Real.exp p) := by
  have hm : Real.exp (max s p) ≠ 0 := (Real.exp_pos _).ne'
  have hnum : Real.exp s + Real.exp p ≠ 0 := by positivity
  rw [Real.exp_sub, Real.exp_sub, div_add_div_same, Real.log_div hnum hm,
    Real.log_exp]
  ring

/-- On finite floats `_logsumexp` computes `log (exp s + exp p)` exactly. -/
theorem logsumexp_fin_eq (s p : ℝ) :
    _logsumexp (.fin s) (.fin p) = .fin (Real.log (Real.exp s + Real.exp p)) := by
  simp only [_logsumexp, ExtReal.toMax, ExtReal.expSub]
  exact congrArg ExtReal.fin (max_shift_logsumexp s p)

/-! ## Constructor (`AttentionSeq2seq.__init__`) -/

/-- Errors raised while constructing the model: the two `assert`s at the top of
`__init__` and the `raise NotImplementedError` for an unsupported
`encoder_type` string. -/
inductive InitError where
  | inputSizeNotDivisibleBy3 : InitError
  | spliceNotOdd : InitError
  | unsupportedEncoderType : InitError
deriving DecidableEq

/-- The constructor arguments that the modelled checks and derived fields
depend on (all other hyperparameters only parameterise the opaque neural
layers). -/
structure A2SConfig where
  inputSize : ℕ
  splice : ℕ
  encoderType : String
  decoderType : String
  numClasses : ℕ
  subsampleList : List Bool
  initDecStateWithEncState : Bool
  inputFeedingApproach : Bool
  ctcLossWeight : ℚ
deriving DecidableEq

/-- The fields of the constructed model object that the claims inspect. -/
structure A2SFields where
  numClasses : ℕ
  sosIndex : ℕ
  eosIndex : ℕ
  fcOutFeatures : ℕ
  encoderType : String
  decoderType : String
  subsampleList : List Bool
  initDecStateWithEncState : Bool
  ctcLossWeight : ℚ
deriving DecidableEq

/-- `AttentionSeq2seq.__init__`: the two asserts, the
`encoder_type in ['lstm', 'gru', 'rnn']` dispatch (anything else reaches
`raise NotImplementedError`), and the derived fields
`self.num_classes = num_classes + 2`, `self.sos_index = num_classes`,
`self.eos_index = num_classes + 1` and the output projection
`self.fc = nn.Linear(_, self.num_classes)` (same output width in both the
input-feeding and the plain branch). -/
def a2sInit (cfg : A2SConfig) : Except InitError A2SFields :=
  if cfg.inputSize % 3 ≠ 0 then .error .inputSizeNotDivisibleBy3
  else if cfg.splice % 2 ≠ 1 then .error .spliceNotOdd
  else if cfg.encoderType = "lstm" ∨ cfg.encoderType = "gru" ∨ cfg.encoderType = "rnn" then
    .ok { numClasses := cfg.numClasses + 2
          sosIndex := cfg.numClasses
          eosIndex := cfg.numClasses + 1
          fcOutFeatures := cfg.numClasses + 2
          encoderType := cfg.encoderType
          decoderType := cfg.decoderType
          subsampleList := cfg.subsampleList
          initDecStateWithEncState := cfg.initDecStateWithEncState
          ctcLossWeight := cfg.ctcLossWeight }
  else .error .unsupportedEncoderType

/-- Errors raised by `_init_decoder_state` at run time: the explicit
`ValueError('Set the final state of the encoder.')`, and the unguarded
`encoder_final_state.size()[1]` dereference on the remaining `None` path
(an `AttributeError` in Python). -/
inductive DecoderStateError where
  | finalStateRequired : DecoderStateError
  | noneDereferenced : DecoderStateError
deriving DecidableEq

/-- `_init_decoder_state`, which runs inside `forward`/`_decode_train` (and
inside both inference decoders), *not* inside the constructor.  The produced
decoder state itself is opaque; `σ` stands for the encoder final state and the
result records which input it was built from. -/
def initDecoderState {σ : Type} (m : A2SFields) (encoderFinalState : Option σ) :
    Except DecoderStateError (Option σ) :=
  if m.initDecStateWithEncState ∧ encoderFinalState.isNone then
    .error .finalStateRequired
  else
    match encoderFinalState with
    | some s => .ok (some s)
    | none => .error .noneDereferenced

/-- `_decode_train` begins by calling `_init_decoder_state`; this wrapper
records that the state-copy check runs on the training forward path, after
construction has already succeeded. -/
def decodeTrainStateSetup {σ : Type} (m : A2SFields) (encoderFinalState : Option σ) :
    Except DecoderStateError (Option σ) :=
  initDecoderState m encoderFinalState

/-! ## CTC input-length rescaling (`forward`, lines 344-346) -/

/-- The length rescaling the source applies before the CTC loss:
`inputs_seq_len /= sum(self.subsample_list) * 2` on an `IntTensor`
(integer division, flooring for the nonnegative lengths involved).
With an all-`False` subsample list this is a division by zero in the source;
that configuration is outside this arithmetic model. -/
def ctcRescaledLen (subsampleList : List Bool) (len : ℕ) : ℕ :=
  len / (subsampleList.count true * 2)

/-- The rescaling stated by the spec: divide by the product of the per-layer
subsampling factors, i.e. by `2 ^ (number of True entries)`. -/
def specCtcRescaledLen (subsampleList : List Bool) (len : ℕ) : ℕ :=
  len / 2 ^ (subsampleList.count true)

/-! ## In-place length updates in `forward` (claim C9)

PyTorch advanced indexing (`tensor[perm_indices]` with an index tensor)
allocates a fresh tensor.  To talk about which tensor object an in-place
update hits, tensors live in a small heap: a cell is the value of one
1-D integer tensor, and a Python variable holding a tensor is an index
into the heap. -/

/-- A heap of 1-D integer tensors. -/
abbrev TensorHeap := List (List ℤ)

/-- Read the tensor stored in cell `r`. -/
def heapGet (h : TensorHeap) (r : ℕ) : List ℤ := h.getD r []

/-- Overwrite cell `r` in place. -/
def heapSet (h : TensorHeap) (r : ℕ) (v : List ℤ) : TensorHeap := h.set r v

/-- Allocate a fresh cell holding `v`, returning its address. -/
def heapAlloc (h : TensorHeap) (v : List ℤ) : TensorHeap × ℕ := (h ++ [v], h.length)

/-- `tensor[perm_indices]`: gather along the batch dimension. -/
def permGather (xs : List ℤ) (perm : List ℕ) : List ℤ :=
  perm.map fun j => xs.getD j 0

/-- The treatment of `inputs_seq_len` and `labels_seq_len` inside `forward`
when the auxiliary CTC loss is enabled:

    inputs_seq_len = inputs_seq_len[perm_indices]    -- fresh tensor
    labels_seq_len = labels_seq_len[perm_indices]    -- fresh tensor
    ...
    labels_seq_len -= 2                              -- in place
    ...
    inputs_seq_len /= sum(self.subsample_list) * 2   -- in place

`divisor` is `sum(subsample_list) * 2`; integer division on `ℤ` truncates
toward zero exactly as the `IntTensor` division does.  Returns the heap after
the call together with the addresses of the two fresh permuted tensors. -/
def forwardLenEffects (h : TensorHeap) (inRef lblRef : ℕ) (perm : List ℕ)
    (ctcOn : Bool) (divisor : ℤ) : TensorHeap × ℕ × ℕ :=
  let p1 := heapAlloc h (permGather (heapGet h inRef) perm)
  let h1 := p1.1
  let inRef' := p1.2
  let p2 := heapAlloc h1 (permGather (heapGet h1 lblRef) perm)
  let h2 := p2.1
  let lblRef' := p2.2
  let h3 := if ctcOn then heapSet h2 lblRef' ((heapGet h2 lblRef').map (· - 2)) else h2
  let h4 := if ctcOn then heapSet h3 inRef' ((heapGet h3 inRef').map (· / divisor)) else h3
  (h4, inRef', lblRef')

/-! ## Decoding

The per-step neural computation (embedding lookup, decoder RNN step, attention,
projection, log-softmax) is opaque; it is bundled as oracle functions in the
structure below.  `n` is the `num_classes` constructor argument, so the
vocabulary seen by the decoder has `n + 2` entries and
`sos_index = n`, `eos_index = n + 1` (constructor lines 158-161). -/

/-- `self.sos_index = num_classes`. -/
def sosIndex (n : ℕ) : ℕ := n

/-- `self.eos_index = num_classes + 1`. -/
def eosIndex (n : ℕ) : ℕ := n + 1

/-- The opaque neural components of `AttentionSeq2seq` used during inference.

* `encode` — `_encode` plus `_init_decoder_state` for the batched greedy path;
  `σ` is the whole batched decoder/attention/encoder-output state.
* `gstep` — one batched greedy decode step: previous tokens in, per-utterance
  rows of log-softmax outputs (`log_probs`) out, along with the updated state
  and the step's attention weights (`AWG`).
* `binit` — the slice of the initial decoder state for one utterance
  (`decoder_state[:, i_batch:i_batch + 1, :]`).
* `bstep` — one single-hypothesis decode step in the beam path
  (`_decode_step` on `encoder_outputs[i_batch:i_batch+1]` followed by `fc` and
  `log_softmax`): utterance, hypothesis decoder state, current
  `attention_weights_step_list[i_batch]` entry, previous token in; new decoder
  state, new attention weights and the `log_probs` row out.  The row is a
  total function on token ids; the decoder only reads ids `< n + 2`. -/
structure A2S (n : ℕ) (U DS AW σ AWG : Type) where
  encode : List U → σ
  gstep : σ → List ℕ → σ × List (List ℚ) × AWG
  binit : U → DS
  bstep : U → DS → Option AW → ℕ → DS × AW × (ℕ → ℝ)

/-- Index of the maximum of a row, first maximal index on ties
(`torch.max(log_probs, dim=1)[1]`); helper carrying the running best. -/
def argmaxFrom : ℕ → ℕ → ℚ → List ℚ → ℕ
  | _, bi, _, [] => bi
  | i, bi, bv, x :: rest =>
    if bv < x then argmaxFrom (i + 1) i x rest else argmaxFrom (i + 1) bi bv rest

/-- `torch.max(log_probs, dim=1)[1]` for one utterance's row. -/
def argmaxQ : List ℚ → ℕ
  | [] => 0
  | x :: rest => argmaxFrom 1 0 x rest

/-- The loop of `_decode_infer_greedy` (lines 596-629): at each step feed the
previous tokens, take the per-utterance argmax, record tokens and attention
weights, and break as soon as every entry of the current step's output equals
`eos_index` (`torch.sum(y.data == self.eos_index) == y.numel()`); the break
happens after the append.  Returns the per-step token vectors and attention
weights (the source concatenates them to `[B, T_out]` afterwards). -/
def greedyGo {n : ℕ} {U DS AW σ AWG : Type} (m : A2S n U DS AW σ AWG) :
    σ → List ℕ → ℕ → List (List ℕ) × List AWG
  | _, _, 0 => ([], [])
  | s, y, fuel + 1 =>
    let r := m.gstep s y
    let y' := r.2.1.map argmaxQ
    if y'.all (fun tok => tok == eosIndex n) then ([y'], [r.2.2])
    else
      let rest := greedyGo m r.1 y' fuel
      (y' :: rest.1, r.2.2 :: rest.2)

/-- `_decode_infer_greedy`: encode, start every utterance from `<SOS>`, then
run the greedy loop for at most `max_decode_length` steps. -/
def A2S.decode_infer_greedy {n : ℕ} {U DS AW σ AWG : Type} (m : A2S n U DS AW σ AWG)
    (inputs : List U) (maxDecodeLength : ℕ) : List (List ℕ) × List AWG :=
  greedyGo m (m.encode inputs) (List.replicate inputs.length (sosIndex n)) maxDecodeLength

/-! ### Beam search (`_decode_infer_beam`)

A hypothesis is the tuple `(hyp, score, decoder_state)` the source keeps in
the beam lists.

The source initialises `new_beam = [[]] * batch_size` and
`complete = [[]] * batch_size`: all batch entries of each of these Python
lists alias one shared list object.  The state below represents that heap
layout exactly:

* `c0` is the single shared list all `complete[i]` initially point to;
* `compPriv i = none` means `complete[i]` still points at `c0`, and
  `some l` means index `i` has been rebound (by
  `complete[i_batch] = complete[i_batch][:beam_width]`) to its own list `l`;
* for `new_beam`, within one time step the shared cell accumulates the
  candidates of every utterance processed so far (`acc` below), and
  `new_beam[i_batch] = sorted(new_beam[i_batch], ...)` freezes a sorted
  snapshot of the shared cell for index `i`, which is exactly
  `sortHyps` applied to the accumulator at that point. -/

/-- A beam hypothesis: emitted token ids, cumulative score, decoder state. -/
abbrev Hyp (DS : Type) := List ℕ × ExtReal × DS

/-- The beam-search loop state across time steps. -/
structure BeamState (DS AW : Type) where
  beam : List (List (Hyp DS))
  c0 : List (Hyp DS)
  compPriv : List (Option (List (Hyp DS)))
  awArr : List (Option AW)

/-- The list object `complete[i]` currently denotes. -/
def completeContentAt {DS AW : Type} (st : BeamState DS AW) (i : ℕ) : List (Hyp DS) :=
  match st.compPriv.getD i none with
  | none => st.c0
  | some l => l

/-- `len(complete[i])`. -/
def completeLenAt {DS AW : Type} (st : BeamState DS AW) (i : ℕ) : ℕ :=
  (completeContentAt st i).length

/-- `complete[i].append(cand)`: mutates the shared cell while `complete[i]`
still aliases it, the private cell afterwards. -/
def appendComplete {DS AW : Type} (st : BeamState DS AW) (i : ℕ) (cand : Hyp DS) :
    BeamState DS AW :=
  match st.compPriv.getD i none with
  | none => { st with c0 := st.c0 ++ [cand] }
  | some l => { st with compPriv := st.compPriv.set i (some (l ++ [cand])) }

/-- Candidate expansion of one hypothesis over the whole vocabulary
(lines 716-721): `for i, log_prob in enumerate(log_probs):` with
`new_score = _logsumexp(score, log_prob)` and `new_hyp = hyp + (i,)`; every
candidate carries the decoder state produced by this hypothesis's step. -/
noncomputable def expandOne (n : ℕ) {DS : Type} (hyp : List ℕ) (score : ExtReal)
    (ds : DS) (row : ℕ → ℝ) : List (Hyp DS) :=
  (List.range (n + 2)).map fun i => (hyp ++ [i], _logsumexp score (.fin (row i)), ds)

/-- `hyp[-1]`, the last emitted token of a hypothesis (every hypothesis the
decoder builds is nonempty, so the default is never read). -/
def lastTok (l : List ℕ) : ℕ := l.getLastD 0

/-- The inner `for hyp, score, decoder_state in beam[i_batch]` loop: each
hypothesis is stepped with the current `attention_weights_step_list[i_batch]`
value, which is overwritten by the step's output before the next hypothesis is
processed (line 699); at `t = 0` the fed token is `<SOS>` (`ys[i_batch]`),
afterwards `hyp[-1]`.  Returns all candidates in generation order together
with the final attention-weights entry. -/
noncomputable def expandHyps {n : ℕ} {U DS AW σ AWG : Type} (m : A2S n U DS AW σ AWG)
    (t : ℕ) (u : U) : Option AW → List (Hyp DS) → List (Hyp DS) × Option AW
  | aw, [] => ([], aw)
  | aw, (hyp, score, ds) :: rest =>
    let tok := if t = 0 then sosIndex n else lastTok hyp
    let r := m.bstep u ds aw tok
    let cands := expandOne n hyp score r.1 r.2.2
    let rest' := expandHyps m t u (some r.2.1) rest
    (cands ++ rest'.1, rest'.2)

/-- Stable insertion into a descending-by-score list: the new element (which
originally precedes the list elements) goes before the first element it is
not smaller than.  Together with `sortHyps` this is
`sorted(_, key=lambda x: x[1], reverse=True)`: descending and stable. -/
noncomputable def insertHyp {DS : Type} (x : Hyp DS) : List (Hyp DS) → List (Hyp DS)
  | [] => [x]
  | h :: rest => if ExtReal.le h.2.1 x.2.1 then x :: h :: rest else h :: insertHyp x rest

/-- `sorted(candidates, key=lambda x: x[1], reverse=True)`. -/
noncomputable def sortHyps {DS : Type} : List (Hyp DS) → List (Hyp DS)
  | [] => []
  | h :: rest => insertHyp h (sortHyps rest)

/-- Second half of one utterance's turn inside the
`for i_batch in range(batch_size)` loop of a time step (lines 722-734),
after the shared `new_beam` cell has been extended and sorted: move the
`eos`-terminated candidates of the top `beam_width` slice to `complete[i]`,
then either truncate `complete[i]` and report the source's `break`
(`len(complete[i_batch]) >= beam_width`; `beam[i_batch]` is left unchanged on
this path) or replace `beam[i_batch]` by the top `beam_width` non-`eos`
candidates. -/
noncomputable def processUttAfterSort (n : ℕ) {DS AW : Type} (width i : ℕ)
    (st1 : BeamState DS AW) (acc2 nb : List (Hyp DS)) :
    BeamState DS AW × List (Hyp DS) × Bool :=
  let st2 := (nb.take width).foldl
    (fun s c => if lastTok c.1 = eosIndex n then appendComplete s i c else s) st1
  if width ≤ completeLenAt st2 i then
    ({ st2 with compPriv := st2.compPriv.set i (some ((completeContentAt st2 i).take width)) },
     acc2, true)
  else
    ({ st2 with
        beam := st2.beam.set i
          ((nb.filter fun c => lastTok c.1 != eosIndex n).take width) },
     acc2, false)

/-- One utterance's turn inside the `for i_batch in range(batch_size)` loop of
a time step (lines 682-734).  `acc` is the current content of the shared
`new_beam` cell (all candidates appended so far this time step); the
utterance's hypotheses are expanded into the shared cell and the frozen
snapshot `new_beam[i_batch]` is the sorted cell content. -/
noncomputable def processUtt {n : ℕ} {U DS AW σ AWG : Type} (m : A2S n U DS AW σ AWG)
    (t width : ℕ) (u : U) (i : ℕ) (st : BeamState DS AW) (acc : List (Hyp DS)) :
    BeamState DS AW × List (Hyp DS) × Bool :=
  let ex := expandHyps m t u (st.awArr.getD i none) (st.beam.getD i [])
  processUttAfterSort n width i { st with awArr := st.awArr.set i ex.2 }
    (acc ++ ex.1) (sortHyps (acc ++ ex.1))

/-- The `for i_batch in range(batch_size)` loop of one time step, stopping at
the first utterance whose turn hits `break`. -/
noncomputable def stepGo {n : ℕ} {U DS AW σ AWG : Type} (m : A2S n U DS AW σ AWG)
    (t width : ℕ) : List U → ℕ → BeamState DS AW → List (Hyp DS) → BeamState DS AW
  | [], _, st, _ => st
  | u :: us, i, st, acc =>
    let r := processUtt m t width u i st acc
    if r.2.2 then r.1 else stepGo m t width us (i + 1) r.1 r.2.1

/-- The `for t in range(_max_decode_length)` loop; each time step starts with
a fresh (empty, shared) `new_beam` cell and revisits the utterances from
index 0.  There is no early exit from this loop in the source. -/
noncomputable def beamLoopGo {n : ℕ} {U DS AW σ AWG : Type} (m : A2S n U DS AW σ AWG)
    (width : ℕ) (inputs : List U) : ℕ → ℕ → BeamState DS AW → BeamState DS AW
  | _, 0, st => st
  | t, fuel + 1, st => beamLoopGo m width inputs (t + 1) fuel (stepGo m t width inputs 0 st [])

/-- Initial beam state (lines 659-678): one hypothesis `((sos,), LOG_1, state)`
per utterance, the shared empty `complete` cell, and `None` attention
weights. -/
def initBeamState {n : ℕ} {U DS AW σ AWG : Type} (m : A2S n U DS AW σ AWG)
    (inputs : List U) : BeamState DS AW :=
  { beam := inputs.map fun u => [([sosIndex n], ExtReal.fin 0, m.binit u)]
    c0 := []
    compPriv := List.replicate inputs.length none
    awArr := List.replicate inputs.length none }

/-- `_decode_infer_beam`'s main loop, run for `_max_decode_length` steps. -/
noncomputable def beamLoop {n : ℕ} {U DS AW σ AWG : Type} (m : A2S n U DS AW σ AWG)
    (inputs : List U) (width maxDecodeLength : ℕ) : BeamState DS AW :=
  beamLoopGo m width inputs 0 maxDecodeLength (initBeamState m inputs)

/-- Final answer for utterance `i` (lines 737-744): sort `complete[i]`
descending, fall back to `beam[i]` when it is empty, take element `[0]`
(`none` here models the `IndexError` Python would raise on an empty list) and
strip the leading `<SOS>` token. -/
noncomputable def bestAt {DS AW : Type} (st : BeamState DS AW) (i : ℕ) :
    Option (List ℕ) :=
  let sortedC := sortHyps (completeContentAt st i)
  let pool := if sortedC.isEmpty then st.beam.getD i [] else sortedC
  pool.head?.map fun h => h.1.drop 1

/-- `_decode_infer_beam` (lines 641-746).  The second component is the
`attention_weights` variable: `[] * batch_size` is the empty list, and the
loop never touches it. -/
noncomputable def A2S.decode_infer_beam {n : ℕ} {U DS AW σ AWG : Type}
    (m : A2S n U DS AW σ AWG) (inputs : List U) (width maxDecodeLength : ℕ) :
    Option (List (List ℕ)) × List AW :=
  let st := beamLoop m inputs width maxDecodeLength
  let attentionWeights : List AW := []
  ((List.range inputs.length).mapM (fun i => bestAt st i), attentionWeights)

/-- `decode_infer` (lines 552-567): dispatch on `beam_width == 1`. -/
noncomputable def A2S.decode_infer {n : ℕ} {U DS AW σ AWG : Type}
    (m : A2S n U DS AW σ AWG) (inputs : List U) (beamWidth maxDecodeLength : ℕ) :
    (List (List ℕ) × List AWG) ⊕ (Option (List (List ℕ)) × List AW) :=
  if beamWidth = 1 then .inl (m.decode_infer_greedy inputs maxDecodeLength)
  else .inr (m.decode_infer_beam inputs beamWidth maxDecodeLength)

/-! ## Claims -/

/-- C4: decoding with `beam_width = 1` is greedy decoding: `decode_infer`
dispatches `beam_width == 1` straight to `_decode_infer_greedy`, so the tokens
chosen at every step and the termination behaviour are exactly greedy
decoding's. -/
theorem c4_beam_width_one_is_greedy {n : ℕ} {U DS AW σ AWG : Type}
    (m : A2S n U DS AW σ AWG) (inputs : List U) (maxDecodeLength : ℕ) :
    m.decode_infer inputs 1 maxDecodeLength =
      Sum.inl (m.decode_infer_greedy inputs maxDecodeLength) := rfl

/-- C10: `_decode_infer_beam` always returns an empty attention-weights list:
`attention_weights = [] * batch_size` is the empty list and the decode loop
never appends to it. -/
theorem c10_beam_attention_weights_empty {n : ℕ} {U DS AW σ AWG : Type}
    (m : A2S n U DS AW σ AWG) (inputs : List U) (width maxDecodeLength : ℕ) :
    (m.decode_infer_beam inputs width maxDecodeLength).2 = ([] : List AW) := rfl

/-- C3: the CTC input-length rescaling divides by `sum(subsample_list) * 2`
(twice the number of subsampling layers), not by the product of the
per-layer factors `2 ^ (number of subsampling layers)`; with three
subsampling layers and length 48 the code produces 8 where the product
rescaling required by the encoder's actual time reduction gives 6. -/
theorem c3_rescale_divisor_is_sum_not_product :
    ctcRescaledLen [true, true, true] 48 = 8 ∧
    specCtcRescaledLen [true, true, true] 48 = 6 ∧
    ctcRescaledLen [true, true, true] 48 ≠ specCtcRescaledLen [true, true, true] 48 := by
  refine ⟨rfl, rfl, ?_⟩
  decide

/-- C8: a successful construction reserves exactly the two extra ids:
`sos_index = num_classes`, `eos_index = num_classes + 1`, and both the class
count and the output projection width become `num_classes + 2`. -/
theorem c8_reserved_ids (cfg : A2SConfig) (m : A2SFields)
    (h : a2sInit cfg = Except.ok m) :
    m.sosIndex = cfg.numClasses ∧ m.eosIndex = cfg.numClasses + 1 ∧
    m.numClasses = cfg.numClasses + 2 ∧ m.fcOutFeatures = cfg.numClasses + 2 := by
  unfold a2sInit at h
  split at h
  · exact absurd h (by simp)
  · split at h
    · exact absurd h (by simp)
    · split at h
      · obtain rfl : _ = m := by simpa using h
        exact ⟨rfl, rfl, rfl, rfl⟩
      · exact absurd h (by simp)

/-- A concrete valid configuration with vocabulary size 5 (the spec's
scenario). -/
def cfg5 : A2SConfig :=
  { inputSize := 3, splice := 1, encoderType := "lstm", decoderType := "lstm",
    numClasses := 5, subsampleList := [], initDecStateWithEncState := true,
    inputFeedingApproach := false, ctcLossWeight := 0 }

/-- The model fields `a2sInit` produces for `cfg5`. -/
def m5 : A2SFields :=
  { numClasses := 7, sosIndex := 5, eosIndex := 6, fcOutFeatures := 7,
    encoderType := "lstm", decoderType := "lstm", subsampleList := [],
    initDecStateWithEncState := true, ctcLossWeight := 0 }

/-- C8 witness: for `num_classes = 5` construction succeeds with
`sos_index = 5`, `eos_index = 6` and output width 7. -/
theorem c8_reserved_ids_witness :
    a2sInit cfg5 = Except.ok m5 ∧
    m5.sosIndex = 5 ∧ m5.eosIndex = 6 ∧ m5.numClasses = 7 ∧ m5.fcOutFeatures = 7 :=
  ⟨rfl, c8_reserved_ids cfg5 m5 rfl⟩

/-- C7 counterexample: for a configuration requesting decoder state-copy, the
constructor succeeds without any check on the (runtime) encoder final state;
the `ValueError` for the missing final state is raised only when
`_init_decoder_state` runs inside the forward/decode path.  Hence the claim
that this error is raised at model construction, before any training step, is
false. -/
theorem c7_counterexample :
    a2sInit cfg5 = Except.ok m5 ∧ m5.initDecStateWithEncState = true ∧
    decodeTrainStateSetup (σ := Unit) m5 none =
      Except.error DecoderStateError.finalStateRequired := by
  refine ⟨rfl, rfl, ?_⟩
  rfl

/-- C7 (amended): the unsupported-encoder-type error is raised at
construction (for any configuration passing the two asserts), while the
state-copy-without-final-state error is raised by decoder-state
initialization during forward/decoding, whenever state-copy is enabled and no
encoder final state is supplied. -/
theorem c7_amended_fail_fast_split :
    (∀ cfg : A2SConfig, cfg.inputSize % 3 = 0 → cfg.splice % 2 = 1 →
      ¬(cfg.encoderType = "lstm" ∨ cfg.encoderType = "gru" ∨ cfg.encoderType = "rnn") →
      a2sInit cfg = Except.error InitError.unsupportedEncoderType) ∧
    (∀ (σ : Type) (m : A2SFields), m.initDecStateWithEncState = true →
      initDecoderState (σ := σ) m none = Except.error DecoderStateError.finalStateRequired) := by
  constructor
  · intro cfg h1 h2 h3
    unfold a2sInit
    rw [if_neg (by simp [h1]), if_neg (by simp [h2]), if_neg h3]
  · intro σ m hm
    unfold initDecoderState
    rw [if_pos ⟨by simp [hm], rfl⟩]

/-- An invalid encoder-type configuration. -/
def cfgBadEnc : A2SConfig :=
  { cfg5 with encoderType := "cnn" }

/-- C7 amended witness: concrete instances of both halves. -/
theorem c7_amended_witness :
    a2sInit cfgBadEnc = Except.error InitError.unsupportedEncoderType ∧
    initDecoderState (σ := Unit) m5 none =
      Except.error DecoderStateError.finalStateRequired :=
  ⟨c7_amended_fail_fast_split.1 cfgBadEnc rfl rfl (by decide),
   c7_amended_fail_fast_split.2 Unit m5 rfl⟩

/-- `getD` after `set` at the written index. -/
theorem listGetDSetSelf {α : Type} (l : List α) (i : ℕ) (a d : α) (h : i < l.length) :
    (l.set i a).getD i d = a := by
  induction l generalizing i with
  | nil => simp at h
  | cons x xs ih =>
    cases i with
    | zero => rfl
    | succ k =>
      rw [List.set_cons_succ, List.getD_cons_succ]
      exact ih k (by simpa using h)

/-- `getD` after `set` at a different index. -/
theorem listGetDSetNe {α : Type} (l : List α) (i j : ℕ) (a d : α) (h : i ≠ j) :
    (l.set i a).getD j d = l.getD j d := by
  induction l generalizing i j with
  | nil => simp
  | cons x xs ih =>
    cases i with
    | zero =>
      cases j with
      | zero => exact absurd rfl h
      | succ k => rw [List.set_cons_zero, List.getD_cons_succ, List.getD_cons_succ]
    | succ k =>
      cases j with
      | zero => rw [List.set_cons_succ, List.getD_cons_zero, List.getD_cons_zero]
      | succ k2 =>
        rw [List.set_cons_succ, List.getD_cons_succ, List.getD_cons_succ]
        exact ih k k2 (fun e => h (by rw [e]))

/-- C9 counterexample: on a concrete heap with caller tensors
`inputs_seq_len = [10, 20]` and `labels_seq_len = [7, 9]`, a CTC-enabled
forward with permutation `[1, 0]` and divisor 2 leaves both caller tensors
unchanged (the in-place `-= 2` and `/=` hit the fresh permuted copies
produced by advanced indexing), contradicting the claim that the caller's
tensors hold different values after the call. -/
theorem c9_counterexample_caller_unchanged :
    heapGet (forwardLenEffects [[10, 20], [7, 9]] 0 1 [1, 0] true 2).1 0 = [10, 20] ∧
    heapGet (forwardLenEffects [[10, 20], [7, 9]] 0 1 [1, 0] true 2).1 1 = [7, 9] ∧
    heapGet (forwardLenEffects [[10, 20], [7, 9]] 0 1 [1, 0] true 2).1 2 = [10, 5] ∧
    heapGet (forwardLenEffects [[10, 20], [7, 9]] 0 1 [1, 0] true 2).1 3 = [7, 5] := by
  refine ⟨?_, ?_, ?_, ?_⟩ <;> rfl

/-- C9 (amended): when the CTC branch runs, `forward` mutates only the two
fresh tensors created by the permutation indexing — the permuted labels
lengths are decremented by 2 and the permuted input lengths are
integer-divided — while the caller's tensors are unchanged. -/
theorem c9_amended_mutates_only_fresh_copies (h : TensorHeap) (inRef lblRef : ℕ)
    (perm : List ℕ) (divisor : ℤ) (hin : inRef < h.length) (hlbl : lblRef < h.length) :
    heapGet (forwardLenEffects h inRef lblRef perm true divisor).1 inRef = heapGet h inRef ∧
    heapGet (forwardLenEffects h inRef lblRef perm true divisor).1 lblRef = heapGet h lblRef ∧
    (forwardLenEffects h inRef lblRef perm true divisor).2.1 = h.length ∧
    (forwardLenEffects h inRef lblRef perm true divisor).2.2 = h.length + 1 ∧
    heapGet (forwardLenEffects h inRef lblRef perm true divisor).1 h.length =
      (permGather (heapGet h inRef) perm).map (fun v => v / divisor) ∧
    heapGet (forwardLenEffects h inRef lblRef perm true divisor).1 (h.length + 1) =
      (permGather (heapGet h lblRef) perm).map (fun v => v - 2) := by
  have hlen1 : (h ++ [permGather (heapGet h inRef) perm]).length = h.length + 1 := by
    simp
  have hget1 : ∀ r, r < h.length →
      heapGet (h ++ [permGather (heapGet h inRef) perm]) r = heapGet h r := by
    intro r hr
    exact List.getD_append _ _ _ _ hr
  have hA : ∀ (g1 g2 : List ℤ) (r : ℕ), r < h.length →
      heapGet ((h ++ [g1]) ++ [g2]) r = heapGet h r := by
    intro g1 g2 r hr
    rw [heapGet, List.getD_append _ _ _ _ (by simp; omega), List.getD_append _ _ _ _ hr]
    rfl
  have hB : ∀ (g1 g2 : List ℤ), heapGet ((h ++ [g1]) ++ [g2]) h.length = g1 := by
    intro g1 g2
    rw [heapGet, List.getD_append _ _ _ _ (by simp), List.getD_append_right _ _ _ _ (le_refl _)]
    simp
  have hC : ∀ (g1 g2 : List ℤ), heapGet ((h ++ [g1]) ++ [g2]) (h.length + 1) = g2 := by
    intro g1 g2
    rw [heapGet, List.getD_append_right _ _ _ _ (by simp)]
    simp
  have hLen2 : ∀ (g1 g2 : List ℤ), ((h ++ [g1]) ++ [g2]).length = h.length + 1 + 1 := by
    intro g1 g2; simp
  have hSetNe : ∀ (l : TensorHeap) (i j : ℕ) (v : List ℤ), i ≠ j →
      heapGet (l.set i v) j = heapGet l j :=
    fun l i j v hij => listGetDSetNe l i j v [] hij
  have hSetSelf : ∀ (l : TensorHeap) (i : ℕ) (v : List ℤ), i < l.length →
      heapGet (l.set i v) i = v :=
    fun l i v hi => listGetDSetSelf l i v [] hi
  simp only [forwardLenEffects, heapAlloc, heapSet, List.length_append, List.length_cons,
    List.length_nil, if_true, Nat.zero_add]
  rw [hget1 lblRef hlbl]
  generalize permGather (heapGet h inRef) perm = g1
  generalize permGather (heapGet h lblRef) perm = g2
  simp only [hC g1 g2]
  have hset1 : ∀ w : List ℤ,
      heapGet (List.set (h ++ [g1] ++ [g2]) (List.length h + 1) w) (List.length h) = g1 := by
    intro w
    rw [hSetNe _ _ _ _ (by omega)]
    exact hB g1 g2
  simp only [hset1]
  refine ⟨?_, ?_, trivial, trivial, ?_, ?_⟩
  · rw [hSetNe _ _ _ _ (by omega), hSetNe _ _ _ _ (by omega)]
    exact hA g1 g2 inRef hin
  · rw [hSetNe _ _ _ _ (by omega), hSetNe _ _ _ _ (by omega)]
    exact hA g1 g2 lblRef hlbl
  · exact hSetSelf _ _ _ (by rw [List.length_set]; simp)
  · rw [hSetNe _ _ _ _ (by omega)]
    exact hSetSelf _ _ _ (by simp)

/-- C9 amended witness: the amended statement at the concrete heap of the
counterexample. -/
theorem c9_amended_witness :
    heapGet (forwardLenEffects [[10, 20], [7, 9]] 0 1 [1, 0] true 2).1 0 = [10, 20] ∧
    heapGet (forwardLenEffects [[10, 20], [7, 9]] 0 1 [1, 0] true 2).1 1 = [7, 9] ∧
    (forwardLenEffects [[10, 20], [7, 9]] 0 1 [1, 0] true 2).2.1 = 2 ∧
    (forwardLenEffects [[10, 20], [7, 9]] 0 1 [1, 0] true 2).2.2 = 3 ∧
    heapGet (forwardLenEffects [[10, 20], [7, 9]] 0 1 [1, 0] true 2).1 2 = [10, 5] ∧
    heapGet (forwardLenEffects [[10, 20], [7, 9]] 0 1 [1, 0] true 2).1 3 = [7, 5] :=
  c9_amended_mutates_only_fresh_copies [[10, 20], [7, 9]] 0 1 [1, 0] 2
    (by decide) (by decide)

/-- C2: every candidate produced in a beam-search step carries score
`_logsumexp(score, log_prob)` — the numerically stable log-sum-exp, equal to
`log (exp s + exp p)` on finite scores and to `-inf` when both arguments are
`-inf` — not the plain sum `s + p`. -/
theorem c2_candidate_scores_are_logsumexp :
    (∀ s p : ℝ, _logsumexp (.fin s) (.fin p) = .fin (Real.log (Real.exp s + Real.exp p))) ∧
    _logsumexp .negInf .negInf = .negInf ∧
    ∀ (DS : Type) (n : ℕ) (hyp : List ℕ) (s : ℝ) (ds : DS) (row : ℕ → ℝ),
      ∀ c ∈ expandOne n hyp (.fin s) ds row,
        ∃ i, i < n + 2 ∧ c.1 = hyp ++ [i] ∧
          c.2.1 = .fin (Real.log (Real.exp s + Real.exp (row i))) := by
  have hfin : ∀ s p : ℝ,
      _logsumexp (.fin s) (.fin p) = .fin (Real.log (Real.exp s + Real.exp p)) :=
    logsumexp_fin_eq
  refine ⟨hfin, rfl, ?_⟩
  intro DS n hyp s ds row c hc
  simp only [expandOne, List.mem_map, List.mem_range] at hc
  obtain ⟨i, hi, rfl⟩ := hc
  exact ⟨i, hi, rfl, hfin s (row i)⟩

/-- C2 witness: the candidate for token 0 of a one-token expansion, with
parent score 0 and log-probability 0. -/
theorem c2_candidate_scores_witness :
    ∃ i, i < 0 + 2 ∧
      ((([] : List ℕ) ++ [0], _logsumexp (.fin 0) (.fin ((fun _ : ℕ => (0 : ℝ)) 0)), ()) : Hyp Unit).1 =
        ([] : List ℕ) ++ [i] ∧
      ((([] : List ℕ) ++ [0], _logsumexp (.fin 0) (.fin ((fun _ : ℕ => (0 : ℝ)) 0)), ()) : Hyp Unit).2.1 =
        .fin (Real.log (Real.exp 0 + Real.exp ((fun _ : ℕ => (0 : ℝ)) i))) :=
  c2_candidate_scores_are_logsumexp.2.2 Unit 0 [] 0 () (fun _ => (0 : ℝ))
    (([] : List ℕ) ++ [0], _logsumexp (.fin 0) (.fin ((fun _ : ℕ => (0 : ℝ)) 0)), ())
    (List.mem_map.mpr ⟨0, List.mem_range.mpr (by omega), rfl⟩)

/-- The greedy loop emits at least one step when it has fuel. -/
theorem greedyGo_ne_nil {n : ℕ} {U DS AW σ AWG : Type} (m : A2S n U DS AW σ AWG)
    (fuel : ℕ) (s : σ) (y : List ℕ) (hf : fuel ≠ 0) : (greedyGo m s y fuel).1 ≠ [] := by
  cases fuel with
  | zero => exact absurd rfl hf
  | succ f =>
    simp only [greedyGo]
    split <;> simp

/-- Structural behaviour of the greedy loop: it runs at most `fuel` steps,
stops short of the fuel bound only when the last recorded step is all-`eos`,
and an all-`eos` step is always the last one recorded. -/
theorem greedyGo_spec {n : ℕ} {U DS AW σ AWG : Type} (m : A2S n U DS AW σ AWG)
    (fuel : ℕ) : ∀ (s : σ) (y : List ℕ),
    (greedyGo m s y fuel).1.length ≤ fuel ∧
    ((greedyGo m s y fuel).1.length < fuel →
      ∃ l, (greedyGo m s y fuel).1.getLast? = some l ∧
        l.all (fun tok => tok == eosIndex n) = true) ∧
    (∀ k l, (greedyGo m s y fuel).1.get? k = some l →
      l.all (fun tok => tok == eosIndex n) = true →
      k = (greedyGo m s y fuel).1.length - 1) := by
  induction fuel with
  | zero =>
    intro s y
    refine ⟨le_refl _, by omega, ?_⟩
    intro k l hk
    simp [greedyGo] at hk
  | succ f ih =>
    intro s y
    simp only [greedyGo]
    split
    next hall =>
      refine ⟨by simp, ?_, ?_⟩
      · intro _
        exact ⟨_, rfl, hall⟩
      · intro k l hk _
        cases k with
        | zero => rfl
        | succ k2 => simp at hk
    next hall =>
      obtain ⟨ih1, ih2, ih3⟩ := ih ((m.gstep s y).1) ((m.gstep s y).2.1.map argmaxQ)
      have hne : (greedyGo m ((m.gstep s y).1) ((m.gstep s y).2.1.map argmaxQ) f).1 ≠ [] ∨ f = 0 := by
        by_cases hf : f = 0
        · exact Or.inr hf
        · exact Or.inl (greedyGo_ne_nil m f _ _ hf)
      refine ⟨by simpa using Nat.succ_le_succ ih1, ?_, ?_⟩
      · intro hlt
        have hlt' : (greedyGo m ((m.gstep s y).1) ((m.gstep s y).2.1.map argmaxQ) f).1.length < f := by
          simpa using Nat.lt_of_succ_lt_succ hlt
        obtain ⟨l, hl, hl2⟩ := ih2 hlt'
        have hnn : (greedyGo m ((m.gstep s y).1) ((m.gstep s y).2.1.map argmaxQ) f).1 ≠ [] := by
          intro he
          rw [he] at hl
          simp at hl
        refine ⟨l, ?_, hl2⟩
        rw [List.getLast?_cons, hl]
        simp [List.getLast?_eq_none_iff] at hnn ⊢
      · intro k l hk hall2
        cases k with
        | zero =>
          simp only [List.get?_cons_zero, Option.some.injEq] at hk
          rw [← hk] at hall2
          exact absurd hall2 hall
        | succ k2 =>
          simp only [List.get?_cons_succ] at hk
          have hlen : k2 < (greedyGo m ((m.gstep s y).1) ((m.gstep s y).2.1.map argmaxQ) f).1.length :=
            List.get?_eq_some.mp hk |>.1
          have := ih3 k2 l hk hall2
          simp only [List.length_cons]
          omega

/-- C5: greedy decoding performs at most `max_decode_length` steps (so no
utterance receives more tokens than that bound), stops before the bound only
in a step where every utterance's emitted token is `eos`, and an all-`eos`
step is always the last one performed. -/
theorem c5_greedy_stops_only_on_all_eos {n : ℕ} {U DS AW σ AWG : Type}
    (m : A2S n U DS AW σ AWG) (inputs : List U) (maxDecodeLength : ℕ) :
    (m.decode_infer_greedy inputs maxDecodeLength).1.length ≤ maxDecodeLength ∧
    ((m.decode_infer_greedy inputs maxDecodeLength).1.length < maxDecodeLength →
      ∃ l, (m.decode_infer_greedy inputs maxDecodeLength).1.getLast? = some l ∧
        l.all (fun tok => tok == eosIndex n) = true) ∧
    (∀ k l, (m.decode_infer_greedy inputs maxDecodeLength).1.get? k = some l →
      l.all (fun tok => tok == eosIndex n) = true →
      k = (m.decode_infer_greedy inputs maxDecodeLength).1.length - 1) ∧
    (∀ b, ((m.decode_infer_greedy inputs maxDecodeLength).1.filterMap
        (fun l => l.get? b)).length ≤ maxDecodeLength) := by
  obtain ⟨h1, h2, h3⟩ := greedyGo_spec m maxDecodeLength (m.encode inputs)
    (List.replicate inputs.length (sosIndex n))
  exact ⟨h1, h2, h3, fun b => le_trans (List.length_filterMap_le _ _) h1⟩

/-- A concrete one-utterance model whose network always puts its probability
mass on the `eos` token (`n = 1`, vocabulary `{0, 1, 2}`, `eos = 2`). -/
def gModel : A2S 1 Unit Unit Unit Unit Unit :=
  { encode := fun _ => ()
    gstep := fun _ _ => ((), [[-1, -1, 0]], ())
    binit := fun _ => ()
    bstep := fun _ _ _ _ => ((), (), fun _ => 0) }

/-- C5 witness: on `gModel` with budget 3, greedy stops after one step, that
step is all-`eos`, and it is the last step. -/
theorem c5_greedy_witness :
    (gModel.decode_infer_greedy [()] 3).1.length ≤ 3 ∧
    (∃ l, (gModel.decode_infer_greedy [()] 3).1.getLast? = some l ∧
      l.all (fun tok => tok == eosIndex 1) = true) ∧
    0 = (gModel.decode_infer_greedy [()] 3).1.length - 1 :=
  ⟨(c5_greedy_stops_only_on_all_eos gModel [()] 3).1,
   (c5_greedy_stops_only_on_all_eos gModel [()] 3).2.1 (by decide),
   (c5_greedy_stops_only_on_all_eos gModel [()] 3).2.2.1 0 [2] (by decide) (by decide)⟩

/-- Transitivity of the float order. -/
theorem ExtReal.le_trans' : ∀ x y z : ExtReal, ExtReal.le x y → ExtReal.le y z → ExtReal.le x z
  | .negInf, _, _, _, _ => trivial
  | .fin _, .negInf, _, h, _ => h.elim
  | .fin _, .fin _, .negInf, _, h => h.elim
  | .fin _, .fin _, .fin _, h1, h2 => le_trans h1 h2

/-- Membership through stable insertion. -/
theorem mem_insertHyp {DS : Type} (x a : Hyp DS) (l : List (Hyp DS)) :
    a ∈ insertHyp x l ↔ a = x ∨ a ∈ l := by
  induction l with
  | nil => simp [insertHyp]
  | cons h rest ih =>
    simp only [insertHyp]
    split
    · simp [List.mem_cons]
    · simp only [List.mem_cons, ih]
      tauto

/-- Membership through the stable sort. -/
theorem mem_sortHyps {DS : Type} (a : Hyp DS) (l : List (Hyp DS)) :
    a ∈ sortHyps l ↔ a ∈ l := by
  induction l with
  | nil => simp [sortHyps]
  | cons h rest ih => simp [sortHyps, mem_insertHyp, ih]

/-- Length through stable insertion. -/
theorem length_insertHyp {DS : Type} (x : Hyp DS) (l : List (Hyp DS)) :
    (insertHyp x l).length = l.length + 1 := by
  induction l with
  | nil => rfl
  | cons h rest ih =>
    simp only [insertHyp]
    split
    · rfl
    · simp [ih]

/-- Length through the stable sort. -/
theorem length_sortHyps {DS : Type} (l : List (Hyp DS)) :
    (sortHyps l).length = l.length := by
  induction l with
  | nil => rfl
  | cons h rest ih => simp [sortHyps, length_insertHyp, ih]

/-- The hypothesis lists the beam keeps are descending by score. -/
def SortedHyps {DS : Type} (l : List (Hyp DS)) : Prop :=
  l.Pairwise (fun a b => ExtReal.le b.2.1 a.2.1)

/-- Stable insertion preserves descending order. -/
theorem sorted_insertHyp {DS : Type} (x : Hyp DS) (l : List (Hyp DS)) (hl : SortedHyps l) :
    SortedHyps (insertHyp x l) := by
  induction l with
  | nil => simp [insertHyp, SortedHyps]
  | cons h rest ih =>
    obtain ⟨hhead, htail⟩ := List.pairwise_cons.mp hl
    simp only [insertHyp]
    split
    next hle =>
      refine List.pairwise_cons.mpr ⟨?_, hl⟩
      intro b hb
      rcases List.mem_cons.mp hb with rfl | hb2
      · exact hle
      · exact ExtReal.le_trans' _ _ _ (hhead b hb2) hle
    next hle =>
      refine List.pairwise_cons.mpr ⟨?_, ih htail⟩
      intro b hb
      rcases (mem_insertHyp x b rest).mp hb with rfl | hb2
      · exact ExtReal.le_total_of_not _ _ hle
      · exact hhead b hb2

/-- The stable sort produces a descending list. -/
theorem sorted_sortHyps {DS : Type} (l : List (Hyp DS)) : SortedHyps (sortHyps l) := by
  induction l with
  | nil => exact List.Pairwise.nil
  | cons h rest ih => exact sorted_insertHyp h (sortHyps rest) ih

/-- The head of a descending list bounds every element. -/
theorem head_max_of_sorted {DS : Type} (l : List (Hyp DS)) (h : Hyp DS)
    (hs : SortedHyps l) (hh : l.head? = some h) :
    ∀ h' ∈ l, ExtReal.le h'.2.1 h.2.1 := by
  cases l with
  | nil => simp at hh
  | cons a rest =>
    obtain rfl : a = h := by simpa using hh
    intro h' hh'
    rcases List.mem_cons.mp hh' with rfl | hm
    · exact ExtReal.le_self _
    · exact (List.pairwise_cons.mp hs).1 h' hm

/-- Every hypothesis the decoder ever builds starts with the `<SOS>` token. -/
def HypOk (n : ℕ) {DS : Type} (h : Hyp DS) : Prop :=
  h.1.head? = some (sosIndex n)

/-- Contents of a `complete` list: `<SOS>`-headed and `<EOS>`-terminated. -/
def CompOk (n : ℕ) {DS : Type} (l : List (Hyp DS)) : Prop :=
  ∀ h ∈ l, HypOk n h ∧ lastTok h.1 = eosIndex n

/-- The loop invariant of `_decode_infer_beam` for batch size `B`. -/
def BeamInv (n : ℕ) {DS AW : Type} (B : ℕ) (st : BeamState DS AW) : Prop :=
  st.beam.length = B ∧ st.compPriv.length = B ∧
  (∀ i, i < B → st.beam.getD i [] ≠ []) ∧
  (∀ i, i < B → SortedHyps (st.beam.getD i [])) ∧
  (∀ i, i < B → ∀ h ∈ st.beam.getD i [], HypOk n h) ∧
  CompOk n st.c0 ∧
  (∀ i l, st.compPriv.getD i none = some l → CompOk n l)

/-- Appending a token keeps the head of a nonempty token list. -/
theorem head_append_singleton {x : ℕ} {hyp : List ℕ} (a : ℕ)
    (h : hyp.head? = some x) : (hyp ++ [a]).head? = some x := by
  cases hyp with
  | nil => simp at h
  | cons y t => simpa using h

/-- The last element of `hyp ++ [a]`. -/
theorem getLastD_append_singleton (hyp : List ℕ) (a d : ℕ) :
    (hyp ++ [a]).getLastD d = a := by
  induction hyp generalizing d with
  | nil => rfl
  | cons y t ih =>
    rw [List.cons_append, List.getLastD_cons]
    exact ih y

/-- The last token of an extended hypothesis is the appended one. -/
theorem lastTok_append_singleton (hyp : List ℕ) (a : ℕ) :
    lastTok (hyp ++ [a]) = a :=
  getLastD_append_singleton hyp a 0

/-- Candidates inherit the `<SOS>` head of their parent hypothesis. -/
theorem expandOne_hypOk {n : ℕ} {DS : Type} (hyp : List ℕ) (score : ExtReal)
    (ds : DS) (row : ℕ → ℝ) (hh : hyp.head? = some (sosIndex n)) :
    ∀ c ∈ expandOne n hyp score ds row, HypOk n c := by
  intro c hc
  simp only [expandOne, List.mem_map, List.mem_range] at hc
  obtain ⟨i, _, rfl⟩ := hc
  exact head_append_singleton i hh

/-- The expansion of one hypothesis contains the continuation by token 0. -/
theorem expandOne_token0 {n : ℕ} {DS : Type} (hyp : List ℕ) (score : ExtReal)
    (ds : DS) (row : ℕ → ℝ) :
    ∃ c ∈ expandOne n hyp score ds row, lastTok c.1 = 0 := by
  refine ⟨(hyp ++ [0], _logsumexp score (.fin (row 0)), ds), ?_, ?_⟩
  · exact List.mem_map.mpr ⟨0, List.mem_range.mpr (by omega), rfl⟩
  · exact lastTok_append_singleton hyp 0

/-- All candidates an utterance's hypothesis loop generates are
`<SOS>`-headed when the live hypotheses are. -/
theorem expandHyps_hypOk {n : ℕ} {U DS AW σ AWG : Type} (m : A2S n U DS AW σ AWG)
    (t : ℕ) (u : U) : ∀ (aw : Option AW) (hyps : List (Hyp DS)),
    (∀ h ∈ hyps, HypOk n h) →
    ∀ c ∈ (expandHyps m t u aw hyps).1, HypOk n c := by
  intro aw hyps
  induction hyps generalizing aw with
  | nil => intro _ c hc; simp [expandHyps] at hc
  | cons h rest ih =>
    intro hall c hc
    obtain ⟨hyp, score, ds⟩ := h
    simp only [expandHyps, List.mem_append] at hc
    rcases hc with hc | hc
    · exact expandOne_hypOk hyp score _ _ (hall _ (List.mem_cons_self _ _)) c hc
    · exact ih _ (fun h2 hm => hall h2 (List.mem_cons_of_mem _ hm)) c hc

/-- A nonempty hypothesis loop always generates a candidate whose last token
is 0 (which is never `eos_index = n + 1`). -/
theorem expandHyps_token0 {n : ℕ} {U DS AW σ AWG : Type} (m : A2S n U DS AW σ AWG)
    (t : ℕ) (u : U) (aw : Option AW) (hyps : List (Hyp DS)) (hne : hyps ≠ []) :
    ∃ c ∈ (expandHyps m t u aw hyps).1, lastTok c.1 = 0 := by
  cases hyps with
  | nil => exact absurd rfl hne
  | cons h rest =>
    obtain ⟨hyp, score, ds⟩ := h
    obtain ⟨c, hc, hc0⟩ := expandOne_token0 (n := n) hyp score
      ((m.bstep u ds aw (if t = 0 then sosIndex n else hyp.getLastD 0)).1)
      ((m.bstep u ds aw (if t = 0 then sosIndex n else hyp.getLastD 0)).2.2)
    refine ⟨c, ?_, hc0⟩
    simp only [expandHyps, List.mem_append]
    exact Or.inl hc

/-- `getD` on a replicated `none` list. -/
theorem getD_replicate_none {α : Type} (B i : ℕ) :
    (List.replicate B (none : Option α)).getD i none = none := by
  induction B generalizing i with
  | zero => simp
  | succ b ih =>
    cases i with
    | zero => rfl
    | succ j => simp only [List.replicate_succ, List.getD_cons_succ]; exact ih j

/-- A `some` read via `getD _ none` is in range. -/
theorem getD_some_lt {α : Type} (l : List (Option α)) (i : ℕ) (x : α)
    (h : l.getD i none = some x) : i < l.length := by
  by_contra hge
  rw [List.getD_eq_default _ _ (le_of_not_lt hge)] at h
  exact absurd h (by simp)

/-- `complete[i].append` never touches the beams. -/
theorem appendComplete_beam {DS AW : Type} (st : BeamState DS AW) (i : ℕ) (c : Hyp DS) :
    (appendComplete st i c).beam = st.beam := by
  unfold appendComplete
  split <;> rfl

/-- `complete[i].append` preserves the loop invariant when the appended
candidate is well formed and ends in `eos`. -/
theorem appendComplete_inv {n B : ℕ} {DS AW : Type} (st : BeamState DS AW) (i : ℕ)
    (c : Hyp DS) (hinv : BeamInv n B st) (hok : HypOk n c)
    (heos : lastTok c.1 = eosIndex n) : BeamInv n B (appendComplete st i c) := by
  obtain ⟨h1, h2, h3, h4, h5, h6, h7⟩ := hinv
  unfold appendComplete
  split
  next hnone =>
    refine ⟨h1, h2, h3, h4, h5, ?_, h7⟩
    intro h hm
    rcases List.mem_append.mp hm with hm | hm
    · exact h6 h hm
    · obtain rfl : h = c := by simpa using hm
      exact ⟨hok, heos⟩
  next l hsome =>
    refine ⟨h1, by simpa using h2, h3, h4, h5, h6, ?_⟩
    intro j l2 hj
    by_cases hij : i = j
    · subst hij
      have hlt : i < st.compPriv.length := getD_some_lt _ _ _ hsome
      rw [listGetDSetSelf _ _ _ _ hlt] at hj
      obtain rfl : l ++ [c] = l2 := by simpa using hj
      intro h hm
      rcases List.mem_append.mp hm with hm | hm
      · exact h7 i l hsome h hm
      · obtain rfl : h = c := by simpa using hm
        exact ⟨hok, heos⟩
    · rw [listGetDSetNe _ _ _ _ _ hij] at hj
      exact h7 j l2 hj

/-- The move-to-`complete` fold over the top slice of candidates preserves
the invariant and never touches the beams. -/
theorem foldComplete_inv {n B : ℕ} {DS AW : Type} (i : ℕ) :
    ∀ (cands : List (Hyp DS)) (st : BeamState DS AW), BeamInv n B st →
    (∀ c ∈ cands, HypOk n c) →
    BeamInv n B (cands.foldl
      (fun s c => if lastTok c.1 = eosIndex n then appendComplete s i c else s) st) ∧
    (cands.foldl
      (fun s c => if lastTok c.1 = eosIndex n then appendComplete s i c else s) st).beam
      = st.beam := by
  intro cands
  induction cands with
  | nil => intro st hinv _; exact ⟨hinv, rfl⟩
  | cons c rest ih =>
    intro st hinv hall
    simp only [List.foldl_cons]
    by_cases hc : lastTok c.1 = eosIndex n
    · rw [if_pos hc]
      obtain ⟨ha, hb⟩ := ih (appendComplete st i c)
        (appendComplete_inv st i c hinv (hall c (List.mem_cons_self _ _)) hc)
        (fun c2 hm => hall c2 (List.mem_cons_of_mem _ hm))
      exact ⟨ha, by rw [hb, appendComplete_beam]⟩
    · rw [if_neg hc]
      exact ih st hinv (fun c2 hm => hall c2 (List.mem_cons_of_mem _ hm))

/-- The list `complete[i]` currently denotes always satisfies `CompOk`. -/
theorem compOk_content {n B : ℕ} {DS AW : Type} (st : BeamState DS AW) (i : ℕ)
    (hinv : BeamInv n B st) : CompOk n (completeContentAt st i) := by
  obtain ⟨_, _, _, _, _, h6, h7⟩ := hinv
  unfold completeContentAt
  cases hc : st.compPriv.getD i none with
  | none => exact h6
  | some l => exact h7 i l hc

/-- The completion/pruning stage preserves the loop invariant; the updated
shared cell is returned unchanged. -/
theorem processUttAfterSort_inv {n B : ℕ} {DS AW : Type} (width i : ℕ)
    (st1 : BeamState DS AW) (acc2 nb : List (Hyp DS)) (hinv1 : BeamInv n B st1)
    (hacc2 : ∀ c ∈ acc2, HypOk n c) (hnbOk : ∀ c ∈ nb, HypOk n c)
    (hnbSorted : SortedHyps nb) (hnb0 : i < B → ∃ c ∈ nb, lastTok c.1 = 0) :
    BeamInv n B (processUttAfterSort n width i st1 acc2 nb).1 ∧
    (∀ c ∈ (processUttAfterSort n width i st1 acc2 nb).2.1, HypOk n c) := by
  obtain ⟨hinv2, hbeam2⟩ := foldComplete_inv i (nb.take width) st1 hinv1
    (fun c hm => hnbOk c (List.mem_of_mem_take hm))
  have hcontent := compOk_content (B := B)
    ((nb.take width).foldl
      (fun s c => if lastTok c.1 = eosIndex n then appendComplete s i c else s) st1) i hinv2
  obtain ⟨g1, g2, g3, g4, g5, g6, g7⟩ := hinv2
  unfold processUttAfterSort
  simp only []
  split
  next hcond =>
    refine ⟨⟨g1, by simp [g2], g3, g4, g5, g6, ?_⟩, hacc2⟩
    intro j l2 hj
    by_cases hij : i = j
    · subst hij
      by_cases hlt : i < (List.foldl
          (fun s c => if lastTok c.1 = eosIndex n then appendComplete s i c else s)
          st1 (nb.take width)).compPriv.length
      · rw [listGetDSetSelf _ _ _ _ hlt] at hj
        obtain rfl : _ = l2 := by simpa using hj
        intro h hm
        exact hcontent h (List.mem_of_mem_take hm)
      · rw [List.set_eq_of_length_le (le_of_not_lt hlt)] at hj
        exact g7 i l2 hj
    · rw [listGetDSetNe _ _ _ _ _ hij] at hj
      exact g7 j l2 hj
  next hcond =>
    have hw : 0 < width := by
      by_contra hz
      exact hcond (by omega)
    refine ⟨⟨by simp [g1], g2, ?_, ?_, ?_, g6, g7⟩, hacc2⟩
    · intro j hj
      by_cases hij : i = j
      · subst hij
        rw [listGetDSetSelf _ _ _ _ (by rw [g1]; exact hj)]
        obtain ⟨c, hc, hc0⟩ := hnb0 hj
        have hcf : c ∈ nb.filter fun c => lastTok c.1 != eosIndex n := by
          refine List.mem_filter.mpr ⟨hc, ?_⟩
          rw [hc0]
          simp [eosIndex]
        intro hnil
        rcases List.take_eq_nil_iff.mp hnil with hz | hz
        · omega
        · rw [hz] at hcf
          simp at hcf
      · rw [listGetDSetNe _ _ _ _ _ hij]
        exact g3 j hj
    · intro j hj
      by_cases hij : i = j
      · subst hij
        rw [listGetDSetSelf _ _ _ _ (by rw [g1]; exact hj)]
        exact List.Pairwise.sublist
          ((List.take_sublist _ _).trans (List.filter_sublist _)) hnbSorted
      · rw [listGetDSetNe _ _ _ _ _ hij]
        exact g4 j hj
    · intro j hj h hm
      by_cases hij : i = j
      · subst hij
        rw [listGetDSetSelf _ _ _ _ (by rw [g1]; exact hj)] at hm
        exact hnbOk h (List.mem_filter.mp (List.mem_of_mem_take hm) |>.1)
      · rw [listGetDSetNe _ _ _ _ _ hij] at hm
        exact g5 j hj h hm

/-- One utterance's turn preserves the loop invariant, and the shared cell
only ever holds `<SOS>`-headed candidates. -/
theorem processUtt_inv {n B : ℕ} {U DS AW σ AWG : Type} (m : A2S n U DS AW σ AWG)
    (t width : ℕ) (u : U) (i : ℕ) (st : BeamState DS AW) (acc : List (Hyp DS))
    (hinv : BeamInv n B st) (hacc : ∀ c ∈ acc, HypOk n c) :
    BeamInv n B (processUtt m t width u i st acc).1 ∧
    (∀ c ∈ (processUtt m t width u i st acc).2.1, HypOk n c) := by
  obtain ⟨h1, h2, h3, h4, h5, h6, h7⟩ := hinv
  have hex : ∀ c ∈ (expandHyps m t u (st.awArr.getD i none) (st.beam.getD i [])).1,
      HypOk n c := by
    by_cases hi : i < B
    · exact expandHyps_hypOk m t u _ _ (h5 i hi)
    · have he : st.beam.getD i [] = [] := List.getD_eq_default _ _ (by omega)
      rw [he]
      intro c hc
      simp [expandHyps] at hc
  have hacc2 : ∀ c ∈ acc ++ (expandHyps m t u (st.awArr.getD i none) (st.beam.getD i [])).1,
      HypOk n c := by
    intro c hc
    rcases List.mem_append.mp hc with hc | hc
    · exact hacc c hc
    · exact hex c hc
  unfold processUtt
  refine processUttAfterSort_inv width i _ _ _ ⟨h1, h2, h3, h4, h5, h6, h7⟩ hacc2 ?_ ?_ ?_
  · intro c hc
    exact hacc2 c ((mem_sortHyps c _).mp hc)
  · exact sorted_sortHyps _
  · intro hi
    obtain ⟨c, hc, hc0⟩ := expandHyps_token0 m t u (st.awArr.getD i none)
      (st.beam.getD i []) (h3 i hi)
    exact ⟨c, (mem_sortHyps c _).mpr (List.mem_append.mpr (Or.inr hc)), hc0⟩

/-- The whole utterance loop of one time step preserves the invariant. -/
theorem stepGo_inv {n B : ℕ} {U DS AW σ AWG : Type} (m : A2S n U DS AW σ AWG)
    (t width : ℕ) : ∀ (us : List U) (i : ℕ) (st : BeamState DS AW) (acc : List (Hyp DS)),
    BeamInv n B st → (∀ c ∈ acc, HypOk n c) →
    BeamInv n B (stepGo m t width us i st acc) := by
  intro us
  induction us with
  | nil => intro i st acc hinv _; exact hinv
  | cons u us ih =>
    intro i st acc hinv hacc
    obtain ⟨ha, hb⟩ := processUtt_inv m t width u i st acc hinv hacc
    simp only [stepGo]
    split
    · exact ha
    · exact ih (i + 1) _ _ ha hb

/-- The time loop preserves the invariant. -/
theorem beamLoopGo_inv {n : ℕ} {U DS AW σ AWG : Type} (m : A2S n U DS AW σ AWG)
    (width : ℕ) (inputs : List U) : ∀ (fuel t : ℕ) (st : BeamState DS AW),
    BeamInv n inputs.length st →
    BeamInv n inputs.length (beamLoopGo m width inputs t fuel st) := by
  intro fuel
  induction fuel with
  | zero => intro t st hinv; exact hinv
  | succ f ih =>
    intro t st hinv
    exact ih (t + 1) _ (stepGo_inv m t width inputs 0 st [] hinv (by intro c hc; simp at hc))

/-- The initial beam state satisfies the invariant. -/
theorem initBeamState_inv {n : ℕ} {U DS AW σ AWG : Type} (m : A2S n U DS AW σ AWG)
    (inputs : List U) : BeamInv n inputs.length (initBeamState m inputs : BeamState DS AW) := by
  have hget : ∀ i, i < inputs.length →
      ∃ u, (inputs.map fun u => [([sosIndex n], ExtReal.fin 0, m.binit u)]).getD i [] =
        [([sosIndex n], ExtReal.fin 0, m.binit u)] := by
    intro i hi
    refine ⟨inputs.get ⟨i, hi⟩, ?_⟩
    rw [List.getD_eq_getD_get?, List.get?_map, List.get?_eq_get hi]
    rfl
  refine ⟨by simp [initBeamState], by simp [initBeamState], ?_, ?_, ?_, ?_, ?_⟩
  · intro i hi
    obtain ⟨u, hu⟩ := hget i hi
    simp only [initBeamState, hu]
    simp
  · intro i hi
    obtain ⟨u, hu⟩ := hget i hi
    simp only [initBeamState, hu]
    simp [SortedHyps]
  · intro i hi h hm
    obtain ⟨u, hu⟩ := hget i hi
    simp only [initBeamState, hu] at hm
    obtain rfl : h = ([sosIndex n], ExtReal.fin 0, m.binit u) := by simpa using hm
    rfl
  · intro h hm
    simp [initBeamState] at hm
  · intro i l hl
    simp only [initBeamState] at hl
    rw [getD_replicate_none] at hl
    cases hl

/-- `mapM` over `Option` succeeds when every component does, preserving
positions. -/
theorem mapM_option_spec {α β : Type} (f : α → Option β) :
    ∀ l : List α, (∀ a ∈ l, (f a).isSome) →
    ∃ r, l.mapM f = some r ∧ r.length = l.length ∧
      ∀ k a, l.get? k = some a → r.get? k = f a := by
  intro l
  induction l with
  | nil =>
    intro _
    refine ⟨[], rfl, rfl, ?_⟩
    intro k a h
    simp at h
  | cons a l ih =>
    intro hall
    obtain ⟨b, hb⟩ := Option.isSome_iff_exists.mp (hall a (List.mem_cons_self _ _))
    obtain ⟨r, hr, hlen, hk⟩ := ih fun x hx => hall x (List.mem_cons_of_mem _ hx)
    refine ⟨b :: r, ?_, by simp [hlen], ?_⟩
    · rw [List.mapM_cons, hb, hr]
      rfl
    · intro k x hx
      cases k with
      | zero =>
        obtain rfl : a = x := by simpa using hx
        simp [hb]
      | succ k2 =>
        simp only [List.get?_cons_succ] at hx ⊢
        exact hk k2 x hx

/-- C6: beam decoding always produces an answer for every utterance within
the length budget (no error): element `[0]` exists because `beam[i]` is never
empty, so when `complete[i]` is empty the best live hypothesis is returned;
when `complete[i]` is nonempty its best-scoring element — which ends in the
end marker — is returned; in both cases the leading `<SOS>` token is
stripped. -/
theorem c6_beam_graceful_degradation {n : ℕ} {U DS AW σ AWG : Type}
    (m : A2S n U DS AW σ AWG) (inputs : List U) (width maxDecodeLength : ℕ) :
    ∃ r : List (List ℕ),
      (m.decode_infer_beam inputs width maxDecodeLength).1 = some r ∧
      r.length = inputs.length ∧
      ∀ i, i < inputs.length →
        ∃ h : Hyp DS,
          h.1.head? = some (sosIndex n) ∧
          r.get? i = some (h.1.drop 1) ∧
          (completeContentAt (beamLoop m inputs width maxDecodeLength) i ≠ [] →
            h ∈ completeContentAt (beamLoop m inputs width maxDecodeLength) i ∧
            lastTok h.1 = eosIndex n ∧
            ∀ h2 ∈ completeContentAt (beamLoop m inputs width maxDecodeLength) i,
              ExtReal.le h2.2.1 h.2.1) ∧
          (completeContentAt (beamLoop m inputs width maxDecodeLength) i = [] →
            h ∈ (beamLoop m inputs width maxDecodeLength).beam.getD i [] ∧
            ∀ h2 ∈ (beamLoop m inputs width maxDecodeLength).beam.getD i [],
              ExtReal.le h2.2.1 h.2.1) := by
  have hinv : BeamInv n inputs.length (beamLoop m inputs width maxDecodeLength) :=
    beamLoopGo_inv m width inputs maxDecodeLength 0 _ (initBeamState_inv m inputs)
  have hcomp := fun i => compOk_content (beamLoop m inputs width maxDecodeLength) i hinv
  obtain ⟨h1, h2, h3, h4, h5, h6, h7⟩ := hinv
  have hbest : ∀ i, i < inputs.length →
      ∃ h : Hyp DS,
        bestAt (beamLoop m inputs width maxDecodeLength) i = some (h.1.drop 1) ∧
        h.1.head? = some (sosIndex n) ∧
        (completeContentAt (beamLoop m inputs width maxDecodeLength) i ≠ [] →
          h ∈ completeContentAt (beamLoop m inputs width maxDecodeLength) i ∧
          lastTok h.1 = eosIndex n ∧
          ∀ h2 ∈ completeContentAt (beamLoop m inputs width maxDecodeLength) i,
            ExtReal.le h2.2.1 h.2.1) ∧
        (completeContentAt (beamLoop m inputs width maxDecodeLength) i = [] →
          h ∈ (beamLoop m inputs width maxDecodeLength).beam.getD i [] ∧
          ∀ h2 ∈ (beamLoop m inputs width maxDecodeLength).beam.getD i [],
            ExtReal.le h2.2.1 h.2.1) := by
    intro i hi
    by_cases hcon : completeContentAt (beamLoop m inputs width maxDecodeLength) i = []
    · cases hb : (beamLoop m inputs width maxDecodeLength).beam.getD i [] with
      | nil => exact absurd hb (h3 i hi)
      | cons a t =>
        refine ⟨a, ?_, ?_, fun hc => absurd hcon hc, ?_⟩
        · unfold bestAt
          rw [hcon, hb]
          rfl
        · exact h5 i hi a (by rw [hb]; exact List.mem_cons_self _ _)
        · intro _
          refine ⟨List.mem_cons_self _ _, ?_⟩
          intro h2 hm
          exact head_max_of_sorted (a :: t) a (hb ▸ h4 i hi) rfl h2 hm
    · cases hs : sortHyps (completeContentAt (beamLoop m inputs width maxDecodeLength) i) with
      | nil =>
        exfalso
        apply hcon
        have := length_sortHyps (completeContentAt (beamLoop m inputs width maxDecodeLength) i)
        rw [hs] at this
        exact List.length_eq_zero.mp this.symm
      | cons a t =>
        have hamem : a ∈ completeContentAt (beamLoop m inputs width maxDecodeLength) i :=
          (mem_sortHyps a _).mp (by rw [hs]; exact List.mem_cons_self _ _)
        refine ⟨a, ?_, (hcomp i a hamem).1, ?_, fun hc => absurd hc hcon⟩
        · unfold bestAt
          rw [hs]
          rfl
        · intro _
          refine ⟨hamem, (hcomp i a hamem).2, ?_⟩
          intro h2 hm
          exact head_max_of_sorted (a :: t) a (hs ▸ sorted_sortHyps _) rfl h2
            (hs ▸ (mem_sortHyps h2 _).mpr hm)
  obtain ⟨r, hr, hlen, hk⟩ := mapM_option_spec
    (fun i => bestAt (beamLoop m inputs width maxDecodeLength) i) (List.range inputs.length)
    (by
      intro a ha
      obtain ⟨h, hsome, _⟩ := hbest a (List.mem_range.mp ha)
      show (bestAt (beamLoop m inputs width maxDecodeLength) a).isSome = true
      rw [hsome]
      rfl)
  refine ⟨r, hr, by rw [hlen, List.length_range], ?_⟩
  intro i hi
  obtain ⟨h, hsome, hhd, hc1, hc2⟩ := hbest i hi
  refine ⟨h, hhd, ?_, hc1, hc2⟩
  rw [hk i i (List.get?_range hi)]
  exact hsome

/-- C6 witness: the graceful-degradation statement instantiated at a concrete
one-utterance model with beam width 1 and one decoding step. -/
theorem c6_beam_graceful_witness :
    ∃ r : List (List ℕ),
      (gModel.decode_infer_beam [()] 1 1).1 = some r ∧
      r.length = [()].length ∧
      ∀ i, i < [()].length →
        ∃ h : Hyp Unit,
          h.1.head? = some (sosIndex 1) ∧
          r.get? i = some (h.1.drop 1) ∧
          (completeContentAt (beamLoop gModel [()] 1 1) i ≠ [] →
            h ∈ completeContentAt (beamLoop gModel [()] 1 1) i ∧
            lastTok h.1 = eosIndex 1 ∧
            ∀ h2 ∈ completeContentAt (beamLoop gModel [()] 1 1) i,
              ExtReal.le h2.2.1 h.2.1) ∧
          (completeContentAt (beamLoop gModel [()] 1 1) i = [] →
            h ∈ (beamLoop gModel [()] 1 1).beam.getD i [] ∧
            ∀ h2 ∈ (beamLoop gModel [()] 1 1).beam.getD i [],
              ExtReal.le h2.2.1 h.2.1) :=
  c6_beam_graceful_degradation gModel [()] 1 1

/-- A concrete two-utterance model (`n = 1`, vocabulary `{0, 1, 2}`,
`sos = 1`, `eos = 2`): utterance 0's network puts its mass on the `eos`
token, utterance 1's on token 0. -/
noncomputable def cModel : A2S 1 ℕ Unit Unit Unit Unit :=
  { encode := fun _ => ()
    gstep := fun _ _ => ((), [], ())
    binit := fun _ => ()
    bstep := fun u _ _ _ =>
      ((), (), fun i =>
        if u = 0 then (if i = 2 then (0 : ℝ) else -200)
        else (if i = 0 then (0 : ℝ) else -200)) }

/-- Comparison facts about the two candidate scores occurring in `cModel`
runs: `A := logsumexp(0, -200)` and `C := logsumexp(0, 0)` satisfy `A < C`. -/
theorem cModel_score_lt :
    ¬ ExtReal.le (_logsumexp (.fin 0) (.fin (0 : ℝ)))
        (_logsumexp (.fin 0) (.fin (-200 : ℝ))) ∧
    ExtReal.le (_logsumexp (.fin 0) (.fin (-200 : ℝ)))
        (_logsumexp (.fin 0) (.fin (0 : ℝ))) := by
  rw [logsumexp_fin_eq, logsumexp_fin_eq]
  have hexp : Real.exp (-200) < Real.exp 0 := Real.exp_lt_exp.mpr (by norm_num)
  have hsum : Real.exp 0 + Real.exp (-200) < Real.exp 0 + Real.exp 0 := by linarith
  have hlog : Real.log (Real.exp 0 + Real.exp (-200)) <
      Real.log (Real.exp 0 + Real.exp 0) :=
    Real.log_lt_log (by positivity) hsum
  constructor
  · exact fun hle => absurd (lt_of_lt_of_le hlog hle) (lt_irrefl _)
  · exact le_of_lt hlog

/-- `ExtReal.le` on two finite values is the real order. -/
theorem extReal_le_fin_fin (a b : ℝ) : ExtReal.le (.fin a) (.fin b) ↔ a ≤ b := Iff.rfl

/-- C1 (code evaluated at the failing input): with the shared
`complete = [[]] * batch_size` cell, decoding the batch `[0, 1]` returns
utterance 0's completed hypothesis for *both* utterances — `[[2], [2]]` —
although decoding utterance 1 alone returns `[[0]]`.  The batch result for
utterance 1 is contaminated by utterance 0's beam state, refuting
per-utterance independence. -/
theorem c1_shared_complete_contaminates :
    (cModel.decode_infer_beam [0, 1] 1 1).1 = some [[2], [2]] ∧
    (cModel.decode_infer_beam [1] 1 1).1 = some [[0]] := by
  obtain ⟨hCA, hAC⟩ := cModel_score_lt
  have hAA : ExtReal.le (_logsumexp (.fin 0) (.fin (-200 : ℝ)))
      (_logsumexp (.fin 0) (.fin (-200 : ℝ))) := ExtReal.le_self _
  have hr3 : List.range 3 = [0, 1, 2] := rfl
  have hrange2 : List.range 2 = [0, 1] := rfl
  have hrange1 : List.range 1 = [0] := rfl
  constructor
  · simp [A2S.decode_infer_beam, beamLoop, beamLoopGo, initBeamState, stepGo,
      processUtt, processUttAfterSort, expandHyps, expandOne, cModel, sosIndex, eosIndex,
      lastTok, insertHyp, sortHyps, appendComplete, completeLenAt, completeContentAt,
      bestAt, hr3, hrange2, hrange1, hCA, hAC, hAA, List.getD, List.mapM.loop]
  · simp [A2S.decode_infer_beam, beamLoop, beamLoopGo, initBeamState, stepGo,
      processUtt, processUttAfterSort, expandHyps, expandOne, cModel, sosIndex, eosIndex,
      lastTok, insertHyp, sortHyps, appendComplete, completeLenAt, completeContentAt,
      bestAt, hr3, hrange2, hrange1, hCA, hAC, hAA, List.getD, List.mapM.loop]
